import Mathlib

/-!
# Verification of the zora test-runner event-stream engine

Shallow embedding of `dist/index.mjs` (the zora test runner): the test-unit
pull-sequence protocol (`tester`, `instance.next`, `handleDelegate`), the
asynchronous-iterator combinators (`filter`, `map`, `combine`), the scheduler
(`start`), and the `throws` / `doesNotThrow` assertion predicates.

Modelling conventions:
* The engine is cooperatively concurrent (single execution context); we model a
  unit after its body has settled, so every pull is deterministic.  A pull that
  the code would suspend on (`await coRoutine` then retry) is rendered as an
  explicit `await` outcome; for a settled unit the retry re-enters the same
  state, so divergence of a failed unit is faithfully represented.
* JavaScript `undefined` fields (`offset`, `id`, `pass` absent from an event's
  data) are `Option.none`; the comparison `undefined > 0` is `false`, rendered
  by `jsGtZero`.
* Wall-clock payloads (`executionTime`, `Date.now()` differences) and the
  diagnostic fields `expected` / `actual` / `at` carry no information any claim
  depends on and are omitted from the event record.
* All pull loops are interpreted with explicit fuel so that every definition is
  executable; `none` means the fuel ran out (in particular an infinite retry
  loop yields `none` for every fuel).
-/

/-- The `type` tag of a message pushed to a unit's buffer or reported
(`'title' | 'assert' | 'testAssert' | 'plan' | 'time' | 'comment' | 'bailout'`
plus the scheduler's leading `'version'` message). -/
inductive EType where
  | title
  | assert
  | testAssert
  | plan
  | time
  | comment
  | bailout
  | version
deriving DecidableEq, Repr

/-- One message `{type, data, offset}`.  `offset` is the nesting depth
(`none` = the JS property is absent / `undefined`).  The `data` payload is
flattened into the claim-bearing fields `pass`, `id`, `description`,
`planEnd` (the `end` of a `plan`'s data); fields of `data` that no claim
mentions (`expected`, `actual`, `at`, `executionTime`, the bailout error
object) are omitted. -/
structure Event where
  type : EType
  offset : Option Nat := none
  pass : Option Bool := none
  id : Option Nat := none
  description : Option String := none
  planEnd : Option Nat := none
deriving DecidableEq, Repr

/-- The `result` record of a unit, which is also the terminal value of its
sequence (`{count, pass, description}`; `executionTime` omitted, `spec` is the
body itself). -/
structure Summary where
  count : Nat
  pass : Bool
  description : String
deriving DecidableEq, Repr

/-- JavaScript `undefined > 0` is `false`; `some n > 0` is the numeric test. -/
def jsGtZero : Option Nat → Bool
  | none => false
  | some n => decide (0 < n)

/-- A settled test unit: `buffer` (each slot a plain event `Sum.inl e` or a
registered sub-test `Sum.inr (id, child)` — the child handle with the id the
collector stamped on it), the `result` fields `count` and `pass` (the
aggregate as collected so far; child summaries fold in at drain time), the
`description`, the unit's own `offset`, and the `done` flag (set by the
fulfilled branch of the coroutine, never by the rejected branch). -/
inductive TestUnit : Type where
  | mk (buffer : List (Event ⊕ Nat × TestUnit)) (count : Nat) (pass : Bool)
      (description : String) (offset : Nat) (done : Bool) : TestUnit

/-- Buffer of a unit. -/
def TestUnit.buffer : TestUnit → List (Event ⊕ Nat × TestUnit)
  | .mk b _ _ _ _ _ => b

/-- `result.count` of a unit. -/
def TestUnit.count : TestUnit → Nat
  | .mk _ c _ _ _ _ => c

/-- `result.pass` of a unit. -/
def TestUnit.pass : TestUnit → Bool
  | .mk _ _ p _ _ _ => p

/-- `result.description` of a unit. -/
def TestUnit.description : TestUnit → String
  | .mk _ _ _ d _ _ => d

/-- The unit's own nesting offset. -/
def TestUnit.offset : TestUnit → Nat
  | .mk _ _ _ _ o _ => o

/-- The `done` flag of a unit. -/
def TestUnit.done : TestUnit → Bool
  | .mk _ _ _ _ _ dn => dn

/-- Replace the buffer, keeping every other field. -/
def TestUnit.withBuffer : TestUnit → List (Event ⊕ Nat × TestUnit) → TestUnit
  | .mk _ c p d o dn, b => .mk b c p d o dn

/-- The unit's terminal `result` value. -/
def TestUnit.summary (u : TestUnit) : Summary :=
  ⟨u.count, u.pass, u.description⟩

@[simp] theorem TestUnit.buffer_mk (b c p d o dn) :
    (TestUnit.mk b c p d o dn).buffer = b := rfl

@[simp] theorem TestUnit.count_mk (b c p d o dn) :
    (TestUnit.mk b c p d o dn).count = c := rfl

@[simp] theorem TestUnit.pass_mk (b c p d o dn) :
    (TestUnit.mk b c p d o dn).pass = p := rfl

@[simp] theorem TestUnit.description_mk (b c p d o dn) :
    (TestUnit.mk b c p d o dn).description = d := rfl

@[simp] theorem TestUnit.offset_mk (b c p d o dn) :
    (TestUnit.mk b c p d o dn).offset = o := rfl

@[simp] theorem TestUnit.done_mk (b c p d o dn) :
    (TestUnit.mk b c p d o dn).done = dn := rfl

@[simp] theorem TestUnit.withBuffer_mk (b c p d o dn b') :
    (TestUnit.mk b c p d o dn).withBuffer b' = .mk b' c p d o dn := rfl

/-- The `testAssert` message `handleDelegate` synthesizes from an exhausted
child's terminal summary: `createAssertion({pass, description, id: delegate.id,
executionTime})` re-tagged `type: 'testAssert'`, at the parent's offset. -/
def testAssertEvent (s : Summary) (id : Nat) (off : Nat) : Event :=
  { type := .testAssert, offset := some off, pass := some s.pass,
    id := some id, description := some s.description }

/-- Outcome of one call to `instance.next()`:
`yield` = `{value, done:false}` together with the successor unit state;
`done` = `{value: result, done:true}`;
`await` = the call suspends on `await coRoutine` and retries — for a settled
unit the retry re-enters the same state. -/
inductive NextRes where
  | yield : Event → TestUnit → NextRes
  | done : Summary → NextRes
  | await : NextRes
deriving Inhabited

/-- `instance.next()` together with `handleDelegate`, on a settled unit.
Fuel bounds the nesting depth descended through child handles (the
`handleDelegate` retry after replacing an exhausted child by its synthesized
`testAssert` is inlined: the retry immediately pops that plain event). -/
def next : Nat → TestUnit → Option NextRes
  | 0, _ => none
  | fuel + 1, u =>
    match u.buffer with
    | [] =>
      if u.done then some (.done u.summary) else some .await
    | .inl e :: rest => some (.yield e (u.withBuffer rest))
    | .inr (id, c) :: rest =>
      match next fuel c with
      | none => none
      | some .await => some .await
      | some (.yield v c') => some (.yield v (u.withBuffer (.inr (id, c') :: rest)))
      | some (.done s) =>
        -- `handleDelegate`: fold the child's pass into the parent's result
        -- (`createAssertion`), replace the front slot by the synthesized
        -- `testAssert`, and retry; the retry returns that event.
        match u with
        | .mk _ cnt p d off dn =>
          some (.yield (testAssertEvent s id off) (.mk rest cnt (p && s.pass) d off dn))

/-- The body of a test unit, as the sequence of synchronous collector calls it
performs: `assert q k` collects an assertion with outcome `q` then continues as
`k`; `sub d body k` registers a nested unit (description `d`, body `body`) then
continues as `k`; `stop true` returns normally; `stop false` raises an uncaught
failure. -/
inductive Body where
  | stop : Bool → Body
  | assert : Bool → Body → Body
  | sub : String → Body → Body → Body

/-- The opening `{type:'title', data: description, offset}` message. -/
def titleEvent (off : Nat) (d : String) : Event :=
  { type := .title, offset := some off, description := some d }

/-- The trailing `{type:'plan', data:{start:1, end:count}, offset}` message. -/
def planEvent (off cnt : Nat) : Event :=
  { type := .plan, offset := some off, planEnd := some cnt }

/-- The trailing `{type:'time', data: executionTime, offset}` message. -/
def timeEvent (off : Nat) : Event :=
  { type := .time, offset := some off }

/-- The catch handler's `{type:'assert', data:{pass:false, description}}`
message — note: no `offset`, no `id`. -/
def failAssertEvent (d : String) : Event :=
  { type := .assert, pass := some false, description := some d }

/-- The catch handler's `{type:'comment', data:'Unhandled exception'}`
message — no `offset`. -/
def unhandledComment : Event :=
  { type := .comment, description := some "Unhandled exception" }

/-- The catch handler's `{type:'bailout', data: err, offset}` message. -/
def bailoutEvent (off : Nat) : Event :=
  { type := .bailout, offset := some off }

/-- Assemble a settled unit from its collector output
`(items, count, collectedPass, returnedNormally)`: the buffer opens with the
`title` message; the collector items follow; a body that returns normally
appends `plan {start:1, end:count}` and `time` and sets `done`; a body that
raises instead appends (the coroutine's catch handler) a synthetic failing
`assert` (no offset, no id), the `'Unhandled exception'` comment (no offset),
and the `bailout` — leaving `done` false and the collected `pass` untouched. -/
def mkUnit (off : Nat) (d : String)
    (r : List (Event ⊕ Nat × TestUnit) × Nat × Bool × Bool) : TestUnit :=
  let tail : List (Event ⊕ Nat × TestUnit) :=
    if r.2.2.2 then
      [.inl (planEvent off r.2.1), .inl (timeEvent off)]
    else
      [.inl (failAssertEvent d), .inl unhandledComment, .inl (bailoutEvent off)]
  .mk (.inl (titleEvent off d) :: r.1 ++ tail) r.2.1 r.2.2.1 d off r.2.2.2

/-- The `collector` loop of `tester`: starting from `count = cnt` and
aggregate `p`, run the remaining body `b`; return the buffer items pushed, the
final `count`, the final collected `pass`, and whether the body returned
normally (`true`) or raised (`false`).  Each assertion gets
`id = count + 1` and folds its `pass` into the aggregate (`createAssertion`);
each sub-test registration builds the settled child unit at `offset + 1`,
stamps `id = count + 1` on it, and pushes the child handle. -/
def collect (off : Nat) : Body → Nat → Bool →
    (List (Event ⊕ Nat × TestUnit) × Nat × Bool × Bool)
  | .stop ok, cnt, p => ([], cnt, p, ok)
  | .assert q k, cnt, p =>
    let e : Event := { type := .assert, offset := some off, pass := some q,
                       id := some (cnt + 1) }
    let r := collect off k (cnt + 1) (p && q)
    (.inl e :: r.1, r.2)
  | .sub d body k, cnt, p =>
    let child := mkUnit (off + 1) d (collect (off + 1) body 0 true)
    let r := collect off k (cnt + 1) p
    (.inr (cnt + 1, child) :: r.1, r.2)

/-- `tester(collect)(description, spec)` after the body `b` has settled. -/
def runTest (off : Nat) (d : String) (b : Body) : TestUnit :=
  mkUnit off d (collect off b 0 true)

/-- The `coRoutine` promise's resolved value: the fulfilled branch returns the
`result` record, the rejected branch returns `undefined` (the `.catch` handler
returns nothing).  Mutation of the `result` object after resolution is shared
by reference in the source; we read the final fields. -/
def completion (u : TestUnit) : Option Summary :=
  if u.done then some u.summary else none

example : next 2 (runTest 0 "t" (.assert true (.stop true))) =
    some (.yield { type := .title, offset := some 0, description := some "t" }
      (.mk [.inl { type := .assert, offset := some 0, pass := some true, id := some 1 },
            .inl { type := .plan, offset := some 0, planEnd := some 1 },
            .inl { type := .time, offset := some 0 }] 1 true "t" 0 true)) := rfl

/-! ## Asynchronous-iterator combinators (`filter`, `map`, `combine`) -/

/-- A lazy pull sequence as the scheduler composes them: a unit's own
sequence, a `filter predicate`, a `map fn`, or `combine(...iterators)` (kept
as the current iterator, if any, plus the pending rest). -/
inductive Iter where
  | unit : TestUnit → Iter
  | filtered : (Event → Bool) → Iter → Iter
  | mapped : (Event → Event) → Iter → Iter
  | combined : Option Iter → List Iter → Iter

/-- `combine(...iterators)`: `current = pending.shift()`. -/
def combineIter : List Iter → Iter
  | [] => .combined none []
  | h :: t => .combined (some h) t

/-- Outcome of one `next()` on a composed sequence: `{value, done:false}`
with the successor, or `{done:true}` whose `value` is the terminal summary for
a bare unit and `undefined` (`none`) after any combinator. -/
inductive INext where
  | yield : Event → Iter → INext
  | stop : Option Summary → INext

/-- One `next()` on a composed sequence.  Fuel bounds the internal retries
(`filter` re-pulling on a rejected item, `combine` moving to the next
iterator, a unit's resolved-coroutine await retry). -/
def inext : Nat → Iter → Option INext
  | 0, _ => none
  | fuel + 1, it =>
    match it with
    | .unit u =>
      match next (fuel + 1) u with
      | none => none
      | some .await => inext fuel (.unit u)
      | some (.yield e u') => some (.yield e (.unit u'))
      | some (.done s) => some (.stop (some s))
    | .filtered p inner =>
      match inext fuel inner with
      | none => none
      | some (.stop _) => some (.stop none)
      | some (.yield v inner') =>
        if p v then some (.yield v (.filtered p inner'))
        else inext fuel (.filtered p inner')
    | .mapped f inner =>
      match inext fuel inner with
      | none => none
      | some (.stop _) => some (.stop none)
      | some (.yield v inner') => some (.yield (f v) (.mapped f inner'))
    | .combined none _ => some (.stop none)
    | .combined (some c) pending =>
      match inext fuel c with
      | none => none
      | some (.stop _) => inext fuel (.combined (pending.head?) (pending.tail))
      | some (.yield v c') => some (.yield v (.combined (some c') pending))

/-- Pull a composed sequence to its end, collecting every yielded event and
the terminal value. -/
def drain : Nat → Iter → Option (List Event × Option Summary)
  | 0, _ => none
  | fuel + 1, it =>
    match inext (fuel + 1) it with
    | none => none
    | some (.stop v) => some ([], v)
    | some (.yield e it') => (drain fuel it').map fun r => (e :: r.1, r.2)

/-! ## The scheduler (`start`) -/

/-- The `flatten` branch's `map`: `Object.assign(item, {offset: 0})`. -/
def setOffsetZero (e : Event) : Event := { e with offset := some 0 }

/-- The `flatten` branch's `filter`: `({type}) => type !== 'testAssert'`. -/
def notTestAssert (e : Event) : Bool := !(e.type == .testAssert)

/-- The depth filter:
`item => item.offset > 0 || toKeep.includes(item.type)` with
`toKeep = ['assert', 'comment', 'title', 'testAssert']`. -/
def toKeep (e : Event) : Bool :=
  jsGtZero e.offset ||
    (e.type == .assert || e.type == .comment || e.type == .title || e.type == .testAssert)

/-- The scheduler's stream pipeline over the merged top-level sequences:
in flattened mode first drop `testAssert` events and force `offset` to 0,
then (both modes) apply the `toKeep` depth filter. -/
def pipeline (flatten : Bool) (merged : Iter) : Iter :=
  .filtered toKeep
    (if flatten then .mapped setOffsetZero (.filtered notTestAssert merged) else merged)

/-- Run-wide counters of the scheduler: `count`, `success`, `failure`. -/
structure RunState where
  count : Nat
  success : Nat
  failure : Nat
deriving DecidableEq, Repr

/-- The renumbering `map` stage (its closure state passed explicitly): an
event at `offset > 0`, or one that is neither `assert` nor `testAssert`, is
returned unchanged; otherwise `count` is incremented, stamped as the event's
new id, and the event's `pass` is folded into `success` / `failure`. -/
def renumStep (st : RunState) (e : Event) : Event × RunState :=
  if jsGtZero e.offset || (e.type != .assert && e.type != .testAssert) then (e, st)
  else
    let c := st.count + 1
    ({ e with id := some c },
     { count := c,
       success := st.success + (if e.pass.getD false then 1 else 0),
       failure := st.failure + (if e.pass.getD false then 0 else 1) })

/-- The renumbering stage applied along a whole event list. -/
def renumFold (st : RunState) : List Event → List Event × RunState
  | [] => ([], st)
  | e :: rest =>
    let r := renumStep st e
    let r' := renumFold r.2 rest
    (r.1 :: r'.1, r'.2)

/-- The scheduler's pull loop: pull, renumber, report; stop normally on
`{done:true}`, or stop fatally right after reporting a `bailout` (the rethrow
skips everything after it).  Returns the reported events, the final counters,
and `true` for a normal end / `false` for a bailout. -/
def runLoop : Nat → Iter → RunState → Option (List Event × RunState × Bool)
  | 0, _, _ => none
  | fuel + 1, it, st =>
    match inext (fuel + 1) it with
    | none => none
    | some (.stop _) => some ([], st, true)
    | some (.yield e it') =>
      let r := renumStep st e
      if r.1.type == .bailout then some ([r.1], r.2, false)
      else (runLoop fuel it' r.2).map fun x => (r.1 :: x.1, x.2)

/-- The scheduler's leading `{type:'version', data:13}` report. -/
def versionEvent : Event := { type := .version }

/-- The terminal `plan` the scheduler itself reports: `{start:1, end:count}`. -/
def finalPlan (st : RunState) : Event :=
  { type := .plan, planEnd := some st.count }

/-- The terminal comment: `failed K of N tests` or `ok`. -/
def finalComment (st : RunState) : Event :=
  { type := .comment,
    description := some (if st.failure > 0 then
      s!"failed {st.failure} of {st.count} tests" else "ok") }

/-- The result of `start`: the reported events, ended normally or by the
rethrown bailout. -/
inductive SchedResult where
  | ok : List Event → SchedResult
  | fatal : List Event → SchedResult
deriving DecidableEq, Repr

/-- `start({reporter})` on the registered top-level units (the implicit root
first): report the version line, discard one item from the root's sequence
(its irrelevant title), build `combine(...tests)`, apply the presentation
pipeline, run the pull loop, and on a normal end report the terminal plan and
comment.  A reported `bailout` ends the run fatally with no terminal plan. -/
def runScheduler (flatten : Bool) (units : List TestUnit) (fuel : Nat) :
    Option SchedResult :=
  match units with
  | [] => none
  | root :: rest =>
    match next fuel root with
    | some (.yield _ root') =>
      let merged := combineIter (.unit root' :: rest.map .unit)
      match runLoop fuel (pipeline flatten merged) ⟨0, 0, 0⟩ with
      | none => none
      | some (evs, st, true) =>
        some (.ok (versionEvent :: evs ++ [finalPlan st, finalComment st]))
      | some (evs, _, false) => some (.fatal (versionEvent :: evs))
    | _ => none

/-! ## Pull relations

A step/end relation over the fuel-based interpreters: `∃ fuel` versions of one
pull, and the inductive closure describing a sequence drained to its end.
They let the combinator laws be proved by induction on derivations instead of
fuel arithmetic. -/

/-- One pull on a unit yields `e` and leaves it in state `u'`. -/
def UStep (u : TestUnit) (e : Event) (u' : TestUnit) : Prop :=
  ∃ f, next f u = some (.yield e u')

/-- One pull on a unit signals end-of-sequence with terminal summary `s`. -/
def UEnd (u : TestUnit) (s : Summary) : Prop :=
  ∃ f, next f u = some (.done s)

/-- The unit's sequence, pulled repeatedly, yields exactly `l` and then ends
with terminal summary `s`. -/
inductive UDrains : TestUnit → List Event → Summary → Prop where
  | stop {u s} : UEnd u s → UDrains u [] s
  | step {u e u' l s} : UStep u e u' → UDrains u' l s → UDrains u (e :: l) s

/-- One pull on a composed sequence yields `e`, successor `it'`. -/
def Steps (it : Iter) (e : Event) (it' : Iter) : Prop :=
  ∃ f, inext f it = some (.yield e it')

/-- One pull on a composed sequence signals end-of-sequence with terminal
value `v` (`none` = JS `undefined`). -/
def Ends (it : Iter) (v : Option Summary) : Prop :=
  ∃ f, inext f it = some (.stop v)

/-- The composed sequence, pulled repeatedly, yields exactly `l` and ends with
terminal value `v`. -/
inductive Drains : Iter → List Event → Option Summary → Prop where
  | stop {it v} : Ends it v → Drains it [] v
  | step {it e it' l v} : Steps it e it' → Drains it' l v → Drains it (e :: l) v

/-! ### Fuel monotonicity -/

theorem next_succ {f : Nat} {u : TestUnit} {r : NextRes}
    (h : next f u = some r) : next (f + 1) u = some r := by
  induction f generalizing u r with
  | zero => simp [next] at h
  | succ f ih =>
    cases u with
    | mk buf cnt p d off dn =>
      match buf with
      | [] => exact h
      | .inl e :: rest => exact h
      | .inr (id, c) :: rest =>
        rw [next] at h
        rw [next]
        simp only [TestUnit.buffer_mk] at h ⊢
        cases hc : next f c with
        | none => rw [hc] at h; exact absurd h (by simp)
        | some x =>
          rw [hc] at h
          rw [ih hc]
          exact h

theorem next_mono {f g : Nat} (hfg : f ≤ g) {u : TestUnit} {r : NextRes}
    (h : next f u = some r) : next g u = some r := by
  induction hfg with
  | refl => exact h
  | step _ ih => exact next_succ ih

theorem inext_succ {f : Nat} {it : Iter} {r : INext}
    (h : inext f it = some r) : inext (f + 1) it = some r := by
  induction f generalizing it r with
  | zero => simp [inext] at h
  | succ f ih =>
    cases it with
    | unit u =>
      rw [inext] at h
      rw [inext]
      cases hn : next (f + 1) u with
      | none => rw [hn] at h; exact absurd h (by simp)
      | some x =>
        rw [hn] at h
        rw [next_succ hn]
        cases x with
        | yield e u' => exact h
        | done s => exact h
        | await => exact ih h
    | filtered p inner =>
      rw [inext] at h
      rw [inext]
      cases hn : inext f inner with
      | none => rw [hn] at h; exact absurd h (by simp)
      | some x =>
        rw [hn] at h
        rw [ih hn]
        cases x with
        | stop v => exact h
        | yield v inner' =>
          by_cases hp : p v
          · simpa [hp] using (by simpa [hp] using h : _)
          · simp only [hp, if_false] at h ⊢
            simp only [Bool.false_eq_true, if_false] at h ⊢
            exact ih h
    | mapped m inner =>
      rw [inext] at h
      rw [inext]
      cases hn : inext f inner with
      | none => rw [hn] at h; exact absurd h (by simp)
      | some x =>
        rw [hn] at h
        rw [ih hn]
        cases x with
        | stop v => exact h
        | yield v inner' => exact h
    | combined cur pending =>
      cases cur with
      | none => exact h
      | some c =>
        rw [inext] at h
        rw [inext]
        cases hn : inext f c with
        | none => rw [hn] at h; exact absurd h (by simp)
        | some x =>
          rw [hn] at h
          rw [ih hn]
          cases x with
          | stop v => exact ih h
          | yield v c' => exact h

theorem inext_mono {f g : Nat} (hfg : f ≤ g) {it : Iter} {r : INext}
    (h : inext f it = some r) : inext g it = some r := by
  induction hfg with
  | refl => exact h
  | step _ ih => exact inext_succ ih

/-- `inext` is deterministic across fuels. -/
theorem inext_det {f g : Nat} {it : Iter} {r r' : INext}
    (h : inext f it = some r) (h' : inext g it = some r') : r = r' := by
  rcases Nat.le_total f g with hle | hle
  · have hg := inext_mono hle h
    rw [hg] at h'
    exact Option.some_inj.mp h'
  · have hf := inext_mono hle h'
    rw [hf] at h
    exact (Option.some_inj.mp h).symm

/-- The fuel interpreter realizes the drain relation. -/
theorem drain_sound (f : Nat) {it : Iter} {l : List Event} {v : Option Summary}
    (h : drain f it = some (l, v)) : Drains it l v := by
  induction f generalizing it l v with
  | zero => simp [drain] at h
  | succ f ih =>
    rw [drain] at h
    cases hn : inext (f + 1) it with
    | none => rw [hn] at h; exact absurd h (by simp)
    | some x =>
      rw [hn] at h
      cases x with
      | stop w =>
        simp only [Option.some_inj, Prod.mk.injEq] at h
        rw [← h.1, ← h.2]
        exact .stop ⟨f + 1, hn⟩
      | yield e it' =>
        simp only at h
        cases hd : drain f it' with
        | none => rw [hd] at h; exact absurd h (by simp)
        | some r =>
          rw [hd] at h
          simp only [Option.map_some', Option.some_inj, Prod.mk.injEq] at h
          rw [← h.1, ← h.2]
          exact .step ⟨f + 1, hn⟩ (ih (by rw [hd]))

/-- The drain relation is deterministic: a sequence drains to exactly one
event list and terminal value. -/
theorem Drains.det {it : Iter} {l l' : List Event} {v v' : Option Summary}
    (h : Drains it l v) (h' : Drains it l' v') : l = l' ∧ v = v' := by
  induction h generalizing l' v' with
  | stop he =>
    obtain ⟨f, hf⟩ := he
    cases h' with
    | stop he' =>
      obtain ⟨g, hg⟩ := he'
      cases inext_det hf hg
      exact ⟨rfl, rfl⟩
    | step hs' _ =>
      obtain ⟨g, hg⟩ := hs'
      exact absurd (inext_det hf hg) (by simp)
  | step hs _ ih =>
    obtain ⟨f, hf⟩ := hs
    cases h' with
    | stop he' =>
      obtain ⟨g, hg⟩ := he'
      exact absurd (inext_det hf hg) (by simp)
    | step hs' hd' =>
      obtain ⟨g, hg⟩ := hs'
      cases inext_det hf hg
      have hih := ih hd'
      exact ⟨by rw [hih.1], hih.2⟩

/-! ### Lifting a unit's pulls to its composed sequence -/

theorem Steps_unit {u : TestUnit} {e : Event} {u' : TestUnit}
    (h : UStep u e u') : Steps (.unit u) e (.unit u') := by
  obtain ⟨f, hf⟩ := h
  exact ⟨f + 1, by rw [inext, next_succ hf]⟩

theorem Ends_unit {u : TestUnit} {s : Summary}
    (h : UEnd u s) : Ends (.unit u) (some s) := by
  obtain ⟨f, hf⟩ := h
  exact ⟨f + 1, by rw [inext, next_succ hf]⟩

/-- A unit's sequence drains, seen through the iterator wrapper: the terminal
value is the unit's summary. -/
theorem Drains_unit {u : TestUnit} {l : List Event} {s : Summary}
    (h : UDrains u l s) : Drains (.unit u) l (some s) := by
  induction h with
  | stop he => exact .stop (Ends_unit he)
  | step hs _ ih => exact .step (Steps_unit hs) ih

/-! ### `map` -/

theorem Steps_mapped {it : Iter} {e : Event} {it' : Iter} (m : Event → Event)
    (h : Steps it e it') : Steps (.mapped m it) (m e) (.mapped m it') := by
  obtain ⟨f, hf⟩ := h
  exact ⟨f + 1, by rw [inext, hf]⟩

theorem Ends_mapped {it : Iter} {v : Option Summary} (m : Event → Event)
    (h : Ends it v) : Ends (.mapped m it) none := by
  obtain ⟨f, hf⟩ := h
  exact ⟨f + 1, by rw [inext, hf]⟩

/-- `map(fn)` lazily transforms every yielded item and converts the terminal
value to a bare end-of-sequence signal (`{done}` — the inner terminal value is
discarded). -/
theorem Drains_mapped {it : Iter} {l : List Event} {v : Option Summary}
    (m : Event → Event) (h : Drains it l v) :
    Drains (.mapped m it) (l.map m) none := by
  induction h with
  | stop he => exact .stop (Ends_mapped m he)
  | step hs _ ih => exact .step (Steps_mapped m hs) ih

/-! ### `filter` -/

theorem Steps_filtered_pos {it : Iter} {e : Event} {it' : Iter}
    {p : Event → Bool} (h : Steps it e it') (hp : p e = true) :
    Steps (.filtered p it) e (.filtered p it') := by
  obtain ⟨f, hf⟩ := h
  exact ⟨f + 1, by rw [inext, hf]; simp [hp]⟩

/-- A rejected item is transparently skipped: any pull outcome of the filtered
successor is a pull outcome of the filtered current state. -/
theorem inext_filtered_skip {it : Iter} {e : Event} {it' : Iter}
    {p : Event → Bool} {f : Nat} (hf : inext f it = some (.yield e it'))
    (hp : p e = false) {g : Nat} {r : INext}
    (hr : inext g (.filtered p it') = some r) :
    inext (max f g + 1) (.filtered p it) = some r := by
  rw [inext, inext_mono (Nat.le_max_left f g) hf]
  simp only [hp, Bool.false_eq_true, if_false]
  exact inext_mono (Nat.le_max_right f g) hr

/-- Draining is unaffected by a rejected item at the front. -/
theorem Drains.filtered_skip {it : Iter} {e : Event} {it' : Iter}
    {p : Event → Bool} (h : Steps it e it') (hp : p e = false)
    {l : List Event} {v : Option Summary}
    (hd : Drains (.filtered p it') l v) : Drains (.filtered p it) l v := by
  obtain ⟨f, hf⟩ := h
  cases hd with
  | stop he =>
    obtain ⟨g, hg⟩ := he
    exact .stop ⟨max f g + 1, inext_filtered_skip hf hp hg⟩
  | step hs hrest =>
    obtain ⟨g, hg⟩ := hs
    exact .step ⟨max f g + 1, inext_filtered_skip hf hp hg⟩ hrest

theorem Ends_filtered {it : Iter} {v : Option Summary} (p : Event → Bool)
    (h : Ends it v) : Ends (.filtered p it) none := by
  obtain ⟨f, hf⟩ := h
  exact ⟨f + 1, by rw [inext, hf]⟩

/-- `filter(predicate)` forwards exactly the items passing the predicate,
re-pulling past rejected ones, and converts the terminal value to a bare
end-of-sequence signal. -/
theorem Drains_filtered {it : Iter} {l : List Event} {v : Option Summary}
    (p : Event → Bool) (h : Drains it l v) :
    Drains (.filtered p it) (l.filter p) none := by
  induction h with
  | stop he => exact .stop (Ends_filtered p he)
  | @step it e it' l v hs hd ih =>
    by_cases hp : p e = true
    · rw [List.filter_cons_of_pos hp]
      exact .step (Steps_filtered_pos hs hp) ih
    · rw [List.filter_cons_of_neg (by simpa using hp)]
      exact Drains.filtered_skip hs (by simpa using hp) ih

/-! ### `combine` -/

theorem Steps.of_combined {c : Iter} {e : Event} {c' : Iter} {pending : List Iter}
    (h : Steps c e c') :
    Steps (.combined (some c) pending) e (.combined (some c') pending) := by
  obtain ⟨f, hf⟩ := h
  exact ⟨f + 1, by rw [inext, hf]⟩

theorem Ends.of_combined_none (pending : List Iter) :
    Ends (.combined none pending) none :=
  ⟨1, rfl⟩

/-- When the current iterator is exhausted, `combine` shifts the next pending
iterator in and retries: any pull outcome of the shifted state is a pull
outcome of the current state.  The exhausted iterator's terminal value is
dropped. -/
theorem inext_combined_advance {c : Iter} {v : Option Summary}
    {pending : List Iter} {f : Nat} (hf : inext f c = some (.stop v))
    {g : Nat} {r : INext}
    (hr : inext g (.combined pending.head? pending.tail) = some r) :
    inext (max f g + 1) (.combined (some c) pending) = some r := by
  rw [inext, inext_mono (Nat.le_max_left f g) hf]
  exact inext_mono (Nat.le_max_right f g) hr

theorem Drains.combined_advance {c : Iter} {v : Option Summary}
    {pending : List Iter} (h : Ends c v) {L : List Event} {w : Option Summary}
    (hd : Drains (.combined pending.head? pending.tail) L w) :
    Drains (.combined (some c) pending) L w := by
  obtain ⟨f, hf⟩ := h
  cases hd with
  | stop he =>
    obtain ⟨g, hg⟩ := he
    exact .stop ⟨max f g + 1, inext_combined_advance hf hg⟩
  | step hs hrest =>
    obtain ⟨g, hg⟩ := hs
    exact .step ⟨max f g + 1, inext_combined_advance hf hg⟩ hrest

theorem Drains.combine_cons {c : Iter} {l : List Event} {v : Option Summary}
    (pending : List Iter) {L : List Event} (h : Drains c l v)
    (hd : Drains (.combined pending.head? pending.tail) L none) :
    Drains (.combined (some c) pending) (l ++ L) none := by
  induction h with
  | stop he => simpa using Drains.combined_advance he hd
  | @step it e it' l v hs hdrest ih => exact .step (Steps.of_combined hs) ih

theorem combineIter_head_tail (its : List Iter) :
    combineIter its = .combined its.head? its.tail := by
  cases its <;> rfl

/-! ## Structural predicates over bodies -/

/-- Whether the body's own action list ends by returning normally (nested
bodies do not affect this). -/
def topOk : Body → Bool
  | .stop ok => ok
  | .assert _ k => topOk k
  | .sub _ _ k => topOk k

/-- No uncaught failure anywhere in the body, nested bodies included. -/
def clean : Body → Bool
  | .stop ok => ok
  | .assert _ k => clean k
  | .sub _ cb k => clean cb && clean k

/-- Number of collector calls the body makes (assertions plus sub-test
registrations): the unit's final `count`. -/
def bodyCount : Body → Nat
  | .stop _ => 0
  | .assert _ k => bodyCount k + 1
  | .sub _ _ k => bodyCount k + 1

/-- AND of the `pass` of every assertion collected directly in this body
(nested units excluded). -/
def directPass : Body → Bool
  | .stop _ => true
  | .assert q k => q && directPass k
  | .sub _ _ k => directPass k

/-- AND of every assertion's `pass` in the whole body tree. -/
def bodyPass : Body → Bool
  | .stop _ => true
  | .assert q k => q && bodyPass k
  | .sub _ cb k => bodyPass cb && bodyPass k

/-- AND of `bodyPass` of every directly nested unit's body. -/
def subsPass : Body → Bool
  | .stop _ => true
  | .assert _ k => subsPass k
  | .sub _ cb k => bodyPass cb && subsPass k

theorem bodyPass_eq (b : Body) : bodyPass b = (directPass b && subsPass b) := by
  induction b with
  | stop ok => rfl
  | assert q k ih => simp [bodyPass, directPass, subsPass, ih, Bool.and_assoc]
  | sub d cb k ihcb ihk =>
    simp [bodyPass, directPass, subsPass, ihk]
    cases bodyPass cb <;> cases directPass k <;> simp

/-! ### Collector characterization -/

theorem collect_count (b : Body) (off cnt : Nat) (P : Bool) :
    (collect off b cnt P).2.1 = cnt + bodyCount b := by
  induction b generalizing cnt P with
  | stop ok => simp [collect, bodyCount]
  | assert q k ih => simp [collect, bodyCount, ih]; omega
  | sub d cb k ihcb ihk => simp [collect, bodyCount, ihk]; omega

theorem collect_pass (b : Body) (off cnt : Nat) (P : Bool) :
    (collect off b cnt P).2.2.1 = (P && directPass b) := by
  induction b generalizing cnt P with
  | stop ok => simp [collect, directPass]
  | assert q k ih => simp [collect, directPass, ih, Bool.and_assoc]
  | sub d cb k ihcb ihk => simp [collect, directPass, ihk]

theorem collect_ok (b : Body) (off cnt : Nat) (P : Bool) :
    (collect off b cnt P).2.2.2 = topOk b := by
  induction b generalizing cnt P with
  | stop ok => rfl
  | assert q k ih => simp [collect, topOk, ih]
  | sub d cb k ihcb ihk => simp [collect, topOk, ihk]

/-- The items a body pushes do not depend on the running aggregate flag. -/
theorem collect_items_indep (b : Body) (off cnt : Nat) (P P' : Bool) :
    (collect off b cnt P).1 = (collect off b cnt P').1 := by
  induction b generalizing cnt P P' with
  | stop ok => rfl
  | assert q k ih => simp [collect]; exact ih _ _ _
  | sub d cb k ihcb ihk => simp [collect]; exact ihk _ _ _

/-! ### Delegation: draining a child handle at the front of the buffer -/

/-- `handleDelegate` end-to-end: while the child yields, the parent forwards
its items leaving the slot in place; when the child's sequence ends, the
parent folds the child's `pass` into its own aggregate, yields the
synthesized `testAssert`, and continues with the rest of its buffer. -/
theorem UDrains.delegate {id cnt : Nat} {p : Bool} {d : String} {off : Nat}
    {dn : Bool} {rest : List (Event ⊕ Nat × TestUnit)} {c : TestUnit}
    {cl : List Event} {s : Summary} (h : UDrains c cl s) :
    ∀ {rl : List Event} {t : Summary},
      UDrains (.mk rest cnt (p && s.pass) d off dn) rl t →
      UDrains (.mk (.inr (id, c) :: rest) cnt p d off dn)
        (cl ++ testAssertEvent s id off :: rl) t := by
  induction h with
  | @stop c s he =>
    intro rl t hrest
    obtain ⟨f, hf⟩ := he
    rw [List.nil_append]
    refine .step ⟨f + 1, ?_⟩ hrest
    rw [next]
    simp only [TestUnit.buffer_mk]
    rw [hf]
  | @step c e c' cl s hs hd ih =>
    intro rl t hrest
    obtain ⟨f, hf⟩ := hs
    rw [List.cons_append]
    refine .step ⟨f + 1, ?_⟩ (ih hrest)
    rw [next]
    simp only [TestUnit.buffer_mk]
    rw [hf]
    rfl

theorem topOk_of_clean (b : Body) (hc : clean b = true) : topOk b = true := by
  induction b with
  | stop ok => exact hc
  | assert q k ih => exact ih hc
  | sub d cb k ihcb ihk =>
    simp only [clean, Bool.and_eq_true] at hc
    exact ihk hc.2

/-- Draining the remainder of a settled, failure-free unit: from a buffer
holding the collector items of the remaining body `b` followed by the
trailing `plan`/`time`, the pulls yield every event (children drained in
place) and end with the summary whose `pass` is the current aggregate ANDed
with every nested unit's `bodyPass`. -/
theorem drains_suffix (b : Body) :
    clean b = true → ∀ (off cnt Cf : Nat) (P p : Bool) (d : String),
      ∃ evs, UDrains (.mk ((collect off b cnt P).1 ++
          [.inl (planEvent off Cf), .inl (timeEvent off)]) Cf p d off true)
        evs ⟨Cf, p && subsPass b, d⟩ := by
  induction b with
  | stop ok =>
    intro _hc off cnt Cf P p d
    refine ⟨[planEvent off Cf, timeEvent off], ?_⟩
    simp only [collect, List.nil_append, subsPass, Bool.and_true]
    exact .step ⟨1, rfl⟩ (.step ⟨1, rfl⟩ (.stop ⟨1, rfl⟩))
  | assert q k ih =>
    intro hc off cnt Cf P p d
    obtain ⟨evs, hevs⟩ := ih hc off (cnt + 1) Cf (P && q) p d
    refine ⟨Event.mk .assert (some off) (some q) (some (cnt + 1)) none none :: evs, ?_⟩
    simp only [collect, List.cons_append]
    exact .step ⟨1, rfl⟩ (by simpa [subsPass] using hevs)
  | sub dd cb k ihcb ihk =>
    intro hc off cnt Cf P p d
    simp only [clean, Bool.and_eq_true] at hc
    obtain ⟨evsk, hk⟩ := ihk hc.2 off (cnt + 1) Cf P (p && bodyPass cb) d
    obtain ⟨evscb, hcb⟩ :=
      ihcb hc.1 (off + 1) 0 ((collect (off + 1) cb 0 true).2.1) true (directPass cb) dd
    have hok : (collect (off + 1) cb 0 true).2.2.2 = true := by
      rw [collect_ok]; exact topOk_of_clean cb hc.1
    have hp : (collect (off + 1) cb 0 true).2.2.1 = directPass cb := by
      rw [collect_pass]; simp
    have hchild : UDrains (mkUnit (off + 1) dd (collect (off + 1) cb 0 true))
        (titleEvent (off + 1) dd :: evscb)
        ⟨(collect (off + 1) cb 0 true).2.1, bodyPass cb, dd⟩ := by
      rw [mkUnit]
      simp only [hok, if_true, hp]
      rw [← bodyPass_eq] at hcb
      exact .step ⟨1, rfl⟩ hcb
    have hres := @UDrains.delegate (cnt + 1) Cf p d off true
      ((collect off k (cnt + 1) P).1 ++ [.inl (planEvent off Cf), .inl (timeEvent off)])
      _ _ _ hchild _ _ hk
    refine ⟨titleEvent (off + 1) dd :: evscb ++
      testAssertEvent ⟨(collect (off + 1) cb 0 true).2.1, bodyPass cb, dd⟩ (cnt + 1) off ::
        evsk, ?_⟩
    simp only [collect, List.cons_append]
    have hgoalpass : (p && subsPass (Body.sub dd cb k)) = ((p && bodyPass cb) && subsPass k) := by
      simp [subsPass, Bool.and_assoc]
    rw [hgoalpass]
    exact hres

/-- A settled unit built from a failure-free body drains completely: its
sequence yields a title followed by its items and trailing plan/time, and
ends with the terminal summary whose `count` is the number of collector calls
and whose `pass` is the AND of the direct assertions and the nested units'
aggregate passes. -/
theorem runTest_drains (b : Body) (hc : clean b = true) (off : Nat) (d : String) :
    ∃ evs, UDrains (runTest off d b) evs
      ⟨bodyCount b, directPass b && subsPass b, d⟩ := by
  obtain ⟨evs, hevs⟩ :=
    drains_suffix b hc off 0 ((collect off b 0 true).2.1) true (directPass b) d
  refine ⟨titleEvent off d :: evs, ?_⟩
  have hcnt : bodyCount b = (collect off b 0 true).2.1 := by
    rw [collect_count, Nat.zero_add]
  rw [hcnt, runTest, mkUnit]
  have hok : (collect off b 0 true).2.2.2 = true := by
    rw [collect_ok]; exact topOk_of_clean b hc
  have hp : (collect off b 0 true).2.2.1 = directPass b := by
    rw [collect_pass]; simp
  simp only [hok, if_true, hp]
  exact .step ⟨1, rfl⟩ hevs

/-! ### The `done` flag along pulls -/

theorem UStep.done_eq {u : TestUnit} {e : Event} {u' : TestUnit}
    (h : UStep u e u') : u'.done = u.done := by
  obtain ⟨f, hf⟩ := h
  induction f generalizing u e u' with
  | zero => simp [next] at hf
  | succ f ih =>
    cases u with
    | mk buf cnt p d off dn =>
      cases buf with
      | nil =>
        rw [next] at hf
        simp only [TestUnit.buffer_mk, TestUnit.done_mk] at hf
        cases dn <;> simp at hf
      | cons i rest =>
        cases i with
        | inl e0 =>
          rw [next] at hf
          simp only [TestUnit.buffer_mk, Option.some_inj] at hf
          cases hf
          rfl
        | inr ic =>
          obtain ⟨id, c⟩ := ic
          rw [next] at hf
          simp only [TestUnit.buffer_mk] at hf
          cases hn : next f c with
          | none => rw [hn] at hf; exact absurd hf (by simp)
          | some x =>
            rw [hn] at hf
            cases x with
            | await => simp at hf
            | yield v c' =>
              simp only [Option.some_inj] at hf
              cases hf
              rfl
            | done s =>
              simp only [Option.some_inj] at hf
              cases hf
              rfl

/-- A sequence that ends did so from an empty buffer with `done` set, and its
terminal value is the unit's summary. -/
theorem UEnd.inv {u : TestUnit} {s : Summary} (h : UEnd u s) :
    u.done = true ∧ u.buffer = [] ∧ s = u.summary := by
  obtain ⟨f, hf⟩ := h
  cases f with
  | zero => simp [next] at hf
  | succ f =>
    cases u with
    | mk buf cnt p d off dn =>
      cases buf with
      | nil =>
        rw [next] at hf
        simp only [TestUnit.buffer_mk, TestUnit.done_mk] at hf
        cases dn with
        | false => simp at hf
        | true =>
          simp only [if_true, Option.some_inj] at hf
          cases hf
          exact ⟨rfl, rfl, rfl⟩
      | cons i rest =>
        cases i with
        | inl e0 =>
          rw [next] at hf
          simp only [TestUnit.buffer_mk] at hf
          simp at hf
        | inr ic =>
          obtain ⟨id, c⟩ := ic
          rw [next] at hf
          simp only [TestUnit.buffer_mk] at hf
          cases hn : next f c with
          | none => rw [hn] at hf; exact absurd hf (by simp)
          | some x =>
            rw [hn] at hf
            cases x <;> simp at hf

/-- Only a unit whose `done` flag is set can ever finish its sequence: the
rejected branch of the coroutine never sets it, so a failed unit's sequence
never ends. -/
theorem UDrains.done_eq_true {u : TestUnit} {l : List Event} {s : Summary}
    (h : UDrains u l s) : u.done = true := by
  induction h with
  | stop he => exact he.inv.1
  | step hs _ ih => rw [← hs.done_eq]; exact ih

/-! ### Scheduler loop lemmas -/

/-- Renumbering never changes an event's `type`. -/
theorem renumStep_type (st : RunState) (e : Event) :
    (renumStep st e).1.type = e.type := by
  rw [renumStep]
  split <;> rfl

theorem runLoop_succ {f : Nat} {it : Iter} {st : RunState}
    {r : List Event × RunState × Bool} (h : runLoop f it st = some r) :
    runLoop (f + 1) it st = some r := by
  induction f generalizing it st r with
  | zero => simp [runLoop] at h
  | succ f ih =>
    rw [runLoop] at h
    rw [runLoop]
    cases hn : inext (f + 1) it with
    | none => rw [hn] at h; exact absurd h (by simp)
    | some x =>
      rw [hn] at h
      rw [inext_succ hn]
      cases x with
      | stop v => exact h
      | yield e it' =>
        simp only at h ⊢
        cases hbl : ((renumStep st e).1.type == EType.bailout) with
        | true => simpa [hbl] using h
        | false =>
          simp only [hbl, Bool.false_eq_true, if_false] at h ⊢
          cases hr : runLoop f it' (renumStep st e).2 with
          | none => rw [hr] at h; exact absurd h (by simp)
          | some y => rw [hr] at h; rw [ih hr]; exact h

theorem runLoop_mono {f g : Nat} (hfg : f ≤ g) {it : Iter} {st : RunState}
    {r : List Event × RunState × Bool} (h : runLoop f it st = some r) :
    runLoop g it st = some r := by
  induction hfg with
  | refl => exact h
  | step _ ih => exact runLoop_succ ih

/-- If the merged-and-filtered stream drains without any bailout event, the
scheduler's pull loop reports exactly the renumbered events and ends
normally with the folded counters. -/
theorem runLoop_of_drains {it : Iter} {l : List Event} {v : Option Summary}
    (h : Drains it l v) :
    (∀ e ∈ l, e.type ≠ .bailout) → ∀ st : RunState,
      ∃ f, runLoop f it st = some ((renumFold st l).1, (renumFold st l).2, true) := by
  induction h with
  | @stop it v he =>
    intro _hb st
    obtain ⟨g, hg⟩ := he
    cases g with
    | zero => simp [inext] at hg
    | succ g =>
      refine ⟨g + 1, ?_⟩
      rw [runLoop, hg]
      rfl
  | @step it e it' l v hs hd ih =>
    intro hb st
    obtain ⟨g, hg⟩ := hs
    obtain ⟨k, hk⟩ := ih (fun x hx => hb x (List.mem_cons_of_mem e hx)) (renumStep st e).2
    refine ⟨max g k + 1, ?_⟩
    rw [runLoop, inext_mono (Nat.le_trans (Nat.le_max_left g k) (Nat.le_succ _)) hg]
    simp only
    have hbl : ((renumStep st e).1.type == EType.bailout) = false := by
      rw [renumStep_type]
      simpa using hb e (List.mem_cons_self e l)
    simp only [hbl, Bool.false_eq_true, if_false]
    rw [runLoop_mono (Nat.le_max_right g k) hk]
    rfl

/-- A pulled `bailout` stops the loop right after being reported: the run is
fatal and nothing after the bailout event is processed. -/
theorem runLoop_bailout {it : Iter} {e : Event} {it' : Iter} {f : Nat}
    (hf : inext f it = some (.yield e it')) (hb : e.type = .bailout)
    (st : RunState) : runLoop (f + 1) it st = some ([e], st, false) := by
  have hstep : renumStep st e = (e, st) := by
    rw [renumStep]
    rw [if_pos]
    simp [hb]
  rw [runLoop, inext_succ hf]
  simp only [hstep, hb]
  rfl

/-! ## The `throws` / `doesNotThrow` assertion predicates

`Assertion.throws(func, expected, description)` runs `func` under
`try/catch`.  A thrown JS value is modelled by `JsVal`; the call's outcome is
`Option JsVal` (`some err` = `func` threw `err`, `none` = it returned).  The
`expected` matcher, after the string/description argument swap, is either
absent, a `RegExp` (modelled by its `test` function on strings), a
constructor function (modelled by the constructor's name), or any other
value.  String coercions (`String(undefined) = "undefined"`, an error's
`.message`) are modelled by `jsValString` / `jsMessageString`. -/

/-- A thrown JavaScript value: a number, a string, or an `Error` instance
(constructor name, message). -/
inductive JsVal where
  | num : Int → JsVal
  | str : String → JsVal
  | error : String → String → JsVal
deriving DecidableEq, Repr

/-- `String(x)` for the regexp test on the caught value (`undefined` when
nothing was caught). -/
def jsValString : Option JsVal → String
  | none => "undefined"
  | some (.num n) => toString n
  | some (.str s) => s
  | some (.error c m) => c ++ ": " ++ m

/-- `String(actual && actual.message)`: the caught error's message, or
`"undefined"` when nothing with a message was caught. -/
def jsMessageString : Option JsVal → String
  | some (.error _ m) => m
  | _ => "undefined"

/-- The `expected` matcher argument of `throws` (after the
string/description swap): a `RegExp` (its `test` predicate), a constructor
function (its name), or any other JS value. -/
inductive Matcher where
  | regexp : (String → Bool) → Matcher
  | ctor : String → Matcher
  | value : JsVal → Matcher

/-- `caught.error instanceof expected` for a constructor matcher. -/
def isInstanceOf (v : JsVal) (ctorName : String) : Bool :=
  match v with
  | .error c _ => c == ctorName
  | _ => false

/-- The `pass` computed by `Assertion.throws`: start from
`pass = (caught !== undefined)`; a `RegExp` matcher overwrites it with the
test of the caught value's string or its message (note: even when nothing was
caught); a function matcher overwrites it with `instanceof` only when
something was caught; any other matcher value leaves it untouched. -/
def throwsPass (outcome : Option JsVal) (expected : Option Matcher) : Bool :=
  let caught := outcome.isSome
  match expected with
  | none => caught
  | some (.regexp test) => test (jsValString outcome) || test (jsMessageString outcome)
  | some (.ctor c) =>
    match outcome with
    | some v => isInstanceOf v c
    | none => caught
  | some (.value _) => caught

/-- The `pass` computed by `Assertion.doesNotThrow`: `caught === undefined`;
the matcher argument is never consulted. -/
def doesNotThrowPass (outcome : Option JsVal) (_expected : Option Matcher) : Bool :=
  outcome.isNone

/-- Modelled from the spec claim's words, for comparison with `throwsPass`:
“`throws` passes iff `fn` raises and, when a matcher is supplied, the raised
value satisfies it — instance of the given constructor, message or value
matching the given regular expression, or equal to the given value.” -/
def claimThrowsPass (outcome : Option JsVal) (expected : Option Matcher) : Bool :=
  match outcome with
  | none => false
  | some v =>
    match expected with
    | none => true
    | some (.regexp test) => test (jsValString (some v)) || test (jsMessageString (some v))
    | some (.ctor c) => isInstanceOf v c
    | some (.value w) => v == w

/-! ### Stalled sequences

A failed unit never sets `done`, so once its buffer is exhausted every pull
spins on `await coRoutine; return this.next()` forever.  `Stalls` captures
this at the interpreter level: every fuel runs out.  In particular a
top-level unit's `bailout` (offset 0) is rejected by the `toKeep` filter, the
filter re-pulls, and the whole run hangs. -/

/-- Every pull of the unit either spins on the resolved coroutine (`await`)
or runs out of fuel: no item and no end-of-sequence is ever produced. -/
def UStalls (u : TestUnit) : Prop :=
  ∀ f, next f u = none ∨ next f u = some .await

/-- Every pull of the composed sequence runs out of fuel: its retry loop
spins forever. -/
def Stalls (it : Iter) : Prop := ∀ f, inext f it = none

theorem UStalls_empty_undone (cnt : Nat) (p : Bool) (d : String) (off : Nat) :
    UStalls (.mk [] cnt p d off false) := by
  intro f
  cases f with
  | zero => exact Or.inl rfl
  | succ f => exact Or.inr rfl

theorem Stalls_unit {u : TestUnit} (h : UStalls u) : Stalls (.unit u) := by
  intro f
  induction f with
  | zero => rfl
  | succ f ih =>
    rw [inext]
    rcases h (f + 1) with hn | hn
    · rw [hn]
    · rw [hn]
      exact ih

theorem Stalls_filtered {it : Iter} (h : Stalls it) (p : Event → Bool) :
    Stalls (.filtered p it) := by
  intro f
  cases f with
  | zero => rfl
  | succ f => rw [inext, h f]

theorem Stalls_mapped {it : Iter} (h : Stalls it) (m : Event → Event) :
    Stalls (.mapped m it) := by
  intro f
  cases f with
  | zero => rfl
  | succ f => rw [inext, h f]

theorem Stalls_combined {c : Iter} (h : Stalls c) (pending : List Iter) :
    Stalls (.combined (some c) pending) := by
  intro f
  cases f with
  | zero => rfl
  | succ f => rw [inext, h f]

/-- A filter in front of a rejected item followed by a stalled remainder
stalls itself: it skips the item, re-pulls, and spins. -/
theorem Stalls_filtered_skip {it : Iter} {e : Event} {it' : Iter}
    {p : Event → Bool} (hs : Steps it e it') (hp : p e = false)
    (h : Stalls (.filtered p it')) : Stalls (.filtered p it) := by
  obtain ⟨g, hg⟩ := hs
  intro f
  cases f with
  | zero => rfl
  | succ f =>
    rw [inext]
    cases hn : inext f it with
    | none => rfl
    | some r =>
      have hr := inext_det hn hg
      subst hr
      simp only [hp, Bool.false_eq_true, if_false]
      exact h f

/-- A sequence that yields finitely many items and then stalls forever. -/
inductive DrainsToStall : Iter → List Event → Prop where
  | stall {it} : Stalls it → DrainsToStall it []
  | step {it e it' l} : Steps it e it' → DrainsToStall it' l → DrainsToStall it (e :: l)

/-- If the stream stalls after finitely many non-bailout items, the
scheduler's pull loop never returns at any fuel: the run hangs instead of
ending (normally or fatally). -/
theorem runLoop_none_of_stall {it : Iter} {l : List Event}
    (h : DrainsToStall it l) :
    (∀ e ∈ l, e.type ≠ EType.bailout) →
      ∀ (f : Nat) (st : RunState), runLoop f it st = none := by
  induction h with
  | stall hs =>
    intro _hb f st
    cases f with
    | zero => rfl
    | succ f => rw [runLoop, hs (f + 1)]
  | @step it e it' l hstep hd ih =>
    intro hb f st
    cases f with
    | zero => rfl
    | succ f =>
      rw [runLoop]
      cases hn : inext (f + 1) it with
      | none => rfl
      | some r =>
        obtain ⟨g, hg⟩ := hstep
        have hr := inext_det hn hg
        subst hr
        simp only
        have hbl : ((renumStep st e).1.type == EType.bailout) = false := by
          rw [renumStep_type]
          simpa using hb e (List.mem_cons_self e l)
        simp only [hbl, Bool.false_eq_true, if_false]
        rw [ih (fun x hx => hb x (List.mem_cons_of_mem e hx)) f (renumStep st e).2]
        rfl

/-- If the root's first pull yields (its discarded title) and the pull loop
never returns on the resulting pipeline, the whole scheduler never returns
at any fuel. -/
theorem runScheduler_none_of_stall {fl : Bool} {root : TestUnit}
    {rest : List TestUnit} {e : Event} {root' : TestUnit}
    (hroot : ∀ f : Nat, next (f + 1) root = some (.yield e root'))
    (hloop : ∀ (f : Nat) (st : RunState),
      runLoop f (pipeline fl (combineIter (.unit root' :: rest.map .unit))) st = none) :
    ∀ fuel, runScheduler fl (root :: rest) fuel = none := by
  intro fuel
  cases fuel with
  | zero => rfl
  | succ f =>
    rw [runScheduler.eq_def]
    dsimp only
    rw [hroot f]
    dsimp only
    rw [hloop (f + 1) ⟨0, 0, 0⟩]

/-! ## Claims -/


/-- **C1** (counterexample).  The claim states that a unit whose body raises
gets `aggregatePass = false`, finishes abnormally, and resolves `completion`
with a failing `TestSummary`.  On the code, for a body that raises before any
assertion: the synthetic failing assert, comment and bailout ARE appended to
the buffer, but the catch handler leaves `result.pass` untouched (still
`true`), never sets `done`, and the coroutine resolves with `undefined`
(no summary at all). -/
theorem C1_counterexample :
    (runTest 0 "t" (Body.stop false)).buffer =
      [.inl (titleEvent 0 "t"), .inl (failAssertEvent "t"), .inl unhandledComment,
       .inl (bailoutEvent 0)] ∧
    ¬((runTest 0 "t" (Body.stop false)).pass = false) ∧
    ¬((runTest 0 "t" (Body.stop false)).done = true) ∧
    completion (runTest 0 "t" (Body.stop false)) = none ∧
    ¬(completion (runTest 0 "t" (Body.stop false)) = some ⟨0, false, "t"⟩) :=
  ⟨rfl, by decide, by decide, rfl, by decide⟩

/-- **C1** (amended).  For every unit whose body raises an uncaught failure,
the catch handler appends a synthetic failing `assert`, the
`'Unhandled exception'` comment, and a `bailout` to its buffer; but the
aggregate pass flag keeps the value collected so far, the unit never
finishes (`done` stays `false`), and the completion future resolves with no
summary. -/
theorem C1_failure_handling (b : Body) (off : Nat) (d : String)
    (h : topOk b = false) :
    ∃ pre, (runTest off d b).buffer =
        pre ++ [.inl (failAssertEvent d), .inl unhandledComment, .inl (bailoutEvent off)] ∧
      (runTest off d b).pass = directPass b ∧
      (runTest off d b).done = false ∧
      completion (runTest off d b) = none := by
  refine ⟨.inl (titleEvent off d) :: (collect off b 0 true).1, ?_, ?_, ?_, ?_⟩
  · rw [runTest, mkUnit]
    simp only [collect_ok, h, Bool.false_eq_true, if_false, TestUnit.buffer_mk,
      List.cons_append]
  · rw [runTest, mkUnit]
    simp only [TestUnit.pass_mk, collect_pass, Bool.true_and]
  · rw [runTest, mkUnit]
    simp only [TestUnit.done_mk, collect_ok, h]
  · rw [completion, runTest, mkUnit]
    simp only [TestUnit.done_mk, collect_ok, h, Bool.false_eq_true, if_false]

theorem C1_failure_handling_witness :
    topOk (Body.assert true (Body.stop false)) = false ∧
    ∃ pre, (runTest 0 "w1" (Body.assert true (Body.stop false))).buffer =
        pre ++ [.inl (failAssertEvent "w1"), .inl unhandledComment, .inl (bailoutEvent 0)] ∧
      (runTest 0 "w1" (Body.assert true (Body.stop false))).pass =
        directPass (Body.assert true (Body.stop false)) ∧
      (runTest 0 "w1" (Body.assert true (Body.stop false))).done = false ∧
      completion (runTest 0 "w1" (Body.assert true (Body.stop false))) = none :=
  ⟨by decide, C1_failure_handling (Body.assert true (Body.stop false)) 0 "w1" (by decide)⟩

/-- **C2** (counterexample).  The claim states that a nested failing unit is
summarized upward to its parent as a failing `TestSummary` without aborting
sibling units.  On the code: in a hierarchical run whose first top-level unit
`t1` contains a raising nested unit `c` and is followed by a passing sibling
`t2`, the run ends fatally on the nested unit's forwarded `bailout` — no
`testAssert` summarizing `c` is ever produced, and none of `t2`'s events are
reported. -/
theorem C2_counterexample :
    runScheduler false
      [runTest 0 "Root" (Body.stop true),
       runTest 0 "t1" (Body.sub "c" (Body.stop false) (Body.assert true (Body.stop true))),
       runTest 0 "t2" (Body.assert true (Body.stop true))] 30 =
      some (.fatal [versionEvent, titleEvent 0 "t1", titleEvent 1 "c",
        Event.mk .assert none (some false) (some 1) (some "c") none,
        unhandledComment, bailoutEvent 1]) ∧
    (∀ e ∈ [versionEvent, titleEvent 0 "t1", titleEvent 1 "c",
        Event.mk .assert none (some false) (some 1) (some "c") none,
        unhandledComment, bailoutEvent 1], e.type ≠ EType.testAssert) ∧
    (∀ e ∈ [versionEvent, titleEvent 0 "t1", titleEvent 1 "c",
        Event.mk .assert none (some false) (some 1) (some "c") none,
        unhandledComment, bailoutEvent 1], e.description ≠ some "t2") := by
  refine ⟨by decide, by decide, by decide⟩

/-- **C2** (amended).  A body failure halts that body's remaining
assertions, but it is never summarized upward as a failing `TestSummary`:
the failing unit's sequence never ends.  When the failing unit is nested
(offset > 0) its `bailout` passes the depth filter and, like any `bailout`
event reaching the scheduler's pull loop, ends the whole run fatally right
after being reported, siblings included.  When the failure occurs in a
top-level unit its `bailout` carries offset 0 and is dropped by the `toKeep`
depth filter in both presentation modes, so the run is not fatal: it never
terminates at all — the scheduler spins forever on the failed unit's
sequence (at every fuel the run returns nothing). -/
theorem C2_failure_propagation :
    (∀ (b : Body) (off : Nat) (d : String), topOk b = false →
      ∀ (l : List Event) (s : Summary), ¬ UDrains (runTest off d b) l s) ∧
    (∀ (it : Iter) (e : Event) (it' : Iter) (f : Nat),
      inext f it = some (.yield e it') → e.type = .bailout →
      ∀ st : RunState, runLoop (f + 1) it st = some ([e], st, false)) ∧
    toKeep (bailoutEvent 0) = false ∧
    (∀ off : Nat, toKeep (setOffsetZero (bailoutEvent off)) = false) ∧
    (∀ fuel, runScheduler false
      [runTest 0 "Root" (Body.stop true), runTest 0 "t" (Body.stop false)] fuel = none) ∧
    (∀ fuel, runScheduler true
      [runTest 0 "Root" (Body.stop true), runTest 0 "t" (Body.stop false)] fuel = none) := by
  refine ⟨?_, ?_, rfl, fun off => rfl, ?_, ?_⟩
  · intro b off d h l s hd
    have hdone := hd.done_eq_true
    rw [runTest, mkUnit] at hdone
    simp only [TestUnit.done_mk, collect_ok, h] at hdone
    exact Bool.false_ne_true hdone
  · intro it e it' f hf hb st
    exact runLoop_bailout hf hb st
  · refine runScheduler_none_of_stall (fun f => rfl) ?_
    exact runLoop_none_of_stall
      (.step ⟨10, rfl⟩ (.step ⟨10, rfl⟩ (.step ⟨10, rfl⟩ (.stall
        (Stalls_filtered_skip ⟨2, rfl⟩ rfl
          (Stalls_filtered
            (Stalls_combined (Stalls_unit (UStalls_empty_undone 0 true "t" 0)) [])
            toKeep))))))
      (by decide)
  · refine runScheduler_none_of_stall (fun f => rfl) ?_
    exact runLoop_none_of_stall
      (.step ⟨10, rfl⟩ (.step ⟨10, rfl⟩ (.step ⟨10, rfl⟩ (.stall
        (Stalls_filtered_skip ⟨4, rfl⟩ rfl
          (Stalls_filtered
            (Stalls_mapped
              (Stalls_filtered
                (Stalls_combined (Stalls_unit (UStalls_empty_undone 0 true "t" 0)) [])
                notTestAssert)
              setOffsetZero)
            toKeep))))))
      (by decide)

theorem C2_failure_propagation_witness :
    topOk (Body.stop false) = false ∧
    ¬ UDrains (runTest 0 "w2" (Body.stop false)) [] ⟨0, true, "w2"⟩ ∧
    inext 1 (.unit (.mk [.inl (bailoutEvent 0)] 0 true "w2b" 0 false)) =
      some (.yield (bailoutEvent 0) (.unit (.mk [] 0 true "w2b" 0 false))) ∧
    (bailoutEvent 0).type = EType.bailout ∧
    runLoop 2 (.unit (.mk [.inl (bailoutEvent 0)] 0 true "w2b" 0 false)) ⟨0, 0, 0⟩ =
      some ([bailoutEvent 0], ⟨0, 0, 0⟩, false) ∧
    runScheduler false
      [runTest 0 "Root" (Body.stop true), runTest 0 "t" (Body.stop false)] 200 = none ∧
    runScheduler true
      [runTest 0 "Root" (Body.stop true), runTest 0 "t" (Body.stop false)] 200 = none :=
  ⟨by decide, C2_failure_propagation.1 (Body.stop false) 0 "w2" (by decide) [] ⟨0, true, "w2"⟩,
   rfl, rfl,
   C2_failure_propagation.2.1 (.unit (.mk [.inl (bailoutEvent 0)] 0 true "w2b" 0 false))
     (bailoutEvent 0) (.unit (.mk [] 0 true "w2b" 0 false)) 1 rfl rfl ⟨0, 0, 0⟩,
   C2_failure_propagation.2.2.2.2.1 200,
   C2_failure_propagation.2.2.2.2.2 200⟩

/-- **C4.**  Every pull on a unit's sequence resolves by the four-case
priority order of `instance.next`: (1) a plain event at the front is removed
and returned; (2) a pending child at the front is pulled — a yielded item is
returned with the slot left in place, while a finished child is replaced in
place by the `testAssert` synthesized from its terminal summary (folding its
pass into the parent's aggregate) before retrying; (3) an empty buffer with
the unit unfinished suspends (awaits the coroutine, then retries); (4) an
empty buffer with the unit finished signals end-of-sequence carrying the
unit's summary as terminal value. -/
theorem C4_pull_priority (f : Nat) (buf : List (Event ⊕ Nat × TestUnit))
    (cnt : Nat) (p : Bool) (d : String) (off : Nat) (dn : Bool) :
    (∀ e rest, buf = .inl e :: rest →
      next (f + 1) (.mk buf cnt p d off dn) =
        some (.yield e (.mk rest cnt p d off dn))) ∧
    (∀ id c rest v c', buf = .inr (id, c) :: rest →
      next f c = some (.yield v c') →
      next (f + 1) (.mk buf cnt p d off dn) =
        some (.yield v (.mk (.inr (id, c') :: rest) cnt p d off dn))) ∧
    (∀ id c rest s, buf = .inr (id, c) :: rest →
      next f c = some (.done s) →
      next (f + 1) (.mk buf cnt p d off dn) =
        next (f + 1) (.mk (.inl (testAssertEvent s id off) :: rest) cnt (p && s.pass) d off dn)) ∧
    (buf = [] → dn = false →
      next (f + 1) (.mk buf cnt p d off dn) = some .await) ∧
    (buf = [] → dn = true →
      next (f + 1) (.mk buf cnt p d off dn) = some (.done ⟨cnt, p, d⟩)) := by
  refine ⟨?_, ?_, ?_, ?_, ?_⟩
  · intro e rest h
    subst h
    rw [next]
    rfl
  · intro id c rest v c' h hc
    subst h
    rw [next]
    simp only [TestUnit.buffer_mk]
    rw [hc]
    rfl
  · intro id c rest s h hc
    subst h
    have h1 : next (f + 1) (.mk (.inr (id, c) :: rest) cnt p d off dn) =
        some (.yield (testAssertEvent s id off) (.mk rest cnt (p && s.pass) d off dn)) := by
      rw [next]
      simp only [TestUnit.buffer_mk]
      rw [hc]
    have h2 : next (f + 1)
        (.mk (.inl (testAssertEvent s id off) :: rest) cnt (p && s.pass) d off dn) =
        some (.yield (testAssertEvent s id off) (.mk rest cnt (p && s.pass) d off dn)) := by
      rw [next]
      rfl
    rw [h1, h2]
  · intro h hdn
    subst h
    subst hdn
    rw [next]
    rfl
  · intro h hdn
    subst h
    subst hdn
    rw [next]
    rfl

theorem C4_pull_priority_witness :
    next 2 (.mk [.inl (timeEvent 0)] 3 true "u" 0 true) =
      some (.yield (timeEvent 0) (.mk [] 3 true "u" 0 true)) ∧
    next 2 (.mk [.inr (1, .mk [.inl (timeEvent 1)] 0 true "c" 1 true)] 3 true "u" 0 true) =
      some (.yield (timeEvent 1)
        (.mk [.inr (1, .mk [] 0 true "c" 1 true)] 3 true "u" 0 true)) ∧
    next 2 (.mk [.inr (1, .mk [] 2 false "c" 1 true)] 3 true "u" 0 true) =
      next 2 (.mk [.inl (testAssertEvent ⟨2, false, "c"⟩ 1 0)] 3 (true && false) "u" 0 true) ∧
    next 2 (.mk [] 3 true "u" 0 false) = some .await ∧
    next 2 (.mk [] 3 true "u" 0 true) = some (.done ⟨3, true, "u"⟩) :=
  ⟨(C4_pull_priority 1 [.inl (timeEvent 0)] 3 true "u" 0 true).1 (timeEvent 0) [] rfl,
   (C4_pull_priority 1 [.inr (1, .mk [.inl (timeEvent 1)] 0 true "c" 1 true)] 3 true "u" 0 true).2.1
     1 (.mk [.inl (timeEvent 1)] 0 true "c" 1 true) [] (timeEvent 1) (.mk [] 0 true "c" 1 true) rfl rfl,
   (C4_pull_priority 1 [.inr (1, .mk [] 2 false "c" 1 true)] 3 true "u" 0 true).2.2.1
     1 (.mk [] 2 false "c" 1 true) [] ⟨2, false, "c"⟩ rfl rfl,
   (C4_pull_priority 1 [] 3 true "u" 0 false).2.2.2.1 rfl rfl,
   (C4_pull_priority 1 [] 3 true "u" 0 true).2.2.2.2 rfl rfl⟩

/-- **C3.**  `combine(seq₁, seq₂, …)` pulls sequentially from `seq₁` until it
is exhausted, then `seq₂`, and so on, never interleaving: if each sequence
drains to its own event list, the merged sequence drains to their
concatenation in declaration order (independent of the real-time order in
which the underlying bodies settle, which the settled model abstracts away),
with the terminal values discarded. -/
theorem C3_combine_concatenates {its : List Iter}
    {rs : List (List Event × Option Summary)}
    (h : List.Forall₂ (fun it r => Drains it r.1 r.2) its rs) :
    Drains (combineIter its) ((rs.map Prod.fst).flatten) none := by
  induction h with
  | nil => exact .stop (Ends.of_combined_none [])
  | @cons it r its rs hd htl ih =>
    rw [combineIter]
    simp only [List.map_cons, List.flatten_cons]
    refine Drains.combine_cons its hd ?_
    rwa [← combineIter_head_tail]

theorem C3_combine_concatenates_witness :
    List.Forall₂ (fun it (r : List Event × Option Summary) => Drains it r.1 r.2)
      [.unit (runTest 0 "a" (Body.assert true (Body.stop true))),
       .unit (runTest 0 "b" (Body.assert false (Body.stop true)))]
      [([titleEvent 0 "a", Event.mk .assert (some 0) (some true) (some 1) none none,
         planEvent 0 1, timeEvent 0], some ⟨1, true, "a"⟩),
       ([titleEvent 0 "b", Event.mk .assert (some 0) (some false) (some 1) none none,
         planEvent 0 1, timeEvent 0], some ⟨1, false, "b"⟩)] ∧
    Drains (combineIter
      [.unit (runTest 0 "a" (Body.assert true (Body.stop true))),
       .unit (runTest 0 "b" (Body.assert false (Body.stop true)))])
      (([([titleEvent 0 "a", Event.mk .assert (some 0) (some true) (some 1) none none,
           planEvent 0 1, timeEvent 0], (some ⟨1, true, "a"⟩ : Option Summary)),
         ([titleEvent 0 "b", Event.mk .assert (some 0) (some false) (some 1) none none,
           planEvent 0 1, timeEvent 0], some ⟨1, false, "b"⟩)].map Prod.fst).flatten) none :=
  have hf : List.Forall₂ (fun it (r : List Event × Option Summary) => Drains it r.1 r.2)
      [.unit (runTest 0 "a" (Body.assert true (Body.stop true))),
       .unit (runTest 0 "b" (Body.assert false (Body.stop true)))]
      [([titleEvent 0 "a", Event.mk .assert (some 0) (some true) (some 1) none none,
         planEvent 0 1, timeEvent 0], some ⟨1, true, "a"⟩),
       ([titleEvent 0 "b", Event.mk .assert (some 0) (some false) (some 1) none none,
         planEvent 0 1, timeEvent 0], some ⟨1, false, "b"⟩)] :=
    .cons (drain_sound 10 rfl) (.cons (drain_sound 10 rfl) .nil)
  ⟨hf, C3_combine_concatenates hf⟩

/-- **C8.**  For every test unit built from a failure-free body, the
aggregate pass carried by its final terminal summary equals the AND of the
`pass` of every directly collected assertion and of every nested child
unit's terminal-summary pass. -/
theorem C8_aggregate_pass (b : Body) (off : Nat) (d : String)
    (hc : clean b = true) {l : List Event} {s : Summary}
    (h : Drains (.unit (runTest off d b)) l (some s)) :
    s.pass = (directPass b && subsPass b) := by
  obtain ⟨evs, hevs⟩ := runTest_drains b hc off d
  have h2 := Drains_unit hevs
  have hv := (Drains.det h h2).2
  simp only [Option.some_inj] at hv
  rw [hv]

theorem C8_aggregate_pass_witness :
    clean (Body.sub "c" (Body.assert true (Body.stop true))
      (Body.assert false (Body.stop true))) = true ∧
    (⟨2, false, "t"⟩ : Summary).pass =
      (directPass (Body.sub "c" (Body.assert true (Body.stop true))
          (Body.assert false (Body.stop true))) &&
       subsPass (Body.sub "c" (Body.assert true (Body.stop true))
          (Body.assert false (Body.stop true)))) :=
  ⟨by decide,
   C8_aggregate_pass (Body.sub "c" (Body.assert true (Body.stop true))
       (Body.assert false (Body.stop true))) 0 "t" (by decide)
     (drain_sound 30 rfl)⟩

/-- **C9** (counterexample).  The claim states `throws` passes iff the
function raises and the raised value satisfies the matcher — in particular
"equal to the given value" for a plain-value matcher.  On the code: a matcher
that is neither a RegExp nor a function is simply ignored (`pass` stays
"something was caught"), so throwing `1` against matcher `2` passes; and a
RegExp matcher overwrites `pass` even when nothing was thrown, so
`throws(fn, /undefined/)` passes although `fn` did not raise. -/
theorem C9_counterexample :
    throwsPass (some (.num 1)) (some (.value (.num 2))) = true ∧
    claimThrowsPass (some (.num 1)) (some (.value (.num 2))) = false ∧
    throwsPass none (some (.regexp (fun s => s == "undefined"))) = true ∧
    claimThrowsPass none (some (.regexp (fun s => s == "undefined"))) = false :=
  ⟨rfl, rfl, rfl, rfl⟩

/-- **C9** (amended).  `throws` passes iff: with no matcher, the function
raised; with a constructor matcher, it raised an instance of that
constructor; with a RegExp matcher, the string of the caught value (or its
message — `"undefined"` when nothing was caught) matches, regardless of
whether anything was raised; any other matcher value is ignored (pass iff
raised — no equality check).  `doesNotThrow` passes iff the function did not
raise, ignoring any matcher. -/
theorem C9_throws_semantics (outcome : Option JsVal) (expected : Option Matcher) :
    (throwsPass outcome expected = true ↔
      (match expected with
       | none => ∃ v, outcome = some v
       | some (.regexp t) =>
         t (jsValString outcome) = true ∨ t (jsMessageString outcome) = true
       | some (.ctor c) => ∃ v, outcome = some v ∧ isInstanceOf v c = true
       | some (.value _) => ∃ v, outcome = some v)) ∧
    (doesNotThrowPass outcome expected = true ↔ outcome = none) := by
  constructor
  · cases expected with
    | none => cases outcome <;> simp [throwsPass]
    | some m =>
      cases m with
      | regexp t => simp [throwsPass, Bool.or_eq_true]
      | ctor c => cases outcome <;> simp [throwsPass]
      | value w => cases outcome <;> simp [throwsPass]
  · cases outcome <;> simp [doesNotThrowPass]

/-- **C10.**  For every underlying sequence that ends with a terminal
`TestSummary`, the sequences produced by `map`, `filter`, and the
concatenating `combine` signal end-of-sequence with no value: the terminal
summary is discarded, so a consumer pulling through these combinators never
observes a unit's terminal summary. -/
theorem C10_terminal_discarded {it : Iter} {l : List Event} {s : Summary}
    (h : Drains it l (some s)) (m : Event → Event) (p : Event → Bool) :
    Drains (.mapped m it) (l.map m) none ∧
    Drains (.filtered p it) (l.filter p) none ∧
    Drains (combineIter [it]) l none := by
  refine ⟨Drains_mapped m h, Drains_filtered p h, ?_⟩
  have h2 := Drains.combine_cons [] h (.stop (Ends.of_combined_none []))
  simpa using h2

theorem C10_terminal_discarded_witness :
    Drains (.unit (runTest 0 "a" (Body.assert true (Body.stop true))))
      [titleEvent 0 "a", Event.mk .assert (some 0) (some true) (some 1) none none,
       planEvent 0 1, timeEvent 0] (some ⟨1, true, "a"⟩) ∧
    Drains (.mapped setOffsetZero (.unit (runTest 0 "a" (Body.assert true (Body.stop true)))))
      ([titleEvent 0 "a", Event.mk .assert (some 0) (some true) (some 1) none none,
        planEvent 0 1, timeEvent 0].map setOffsetZero) none ∧
    Drains (.filtered toKeep (.unit (runTest 0 "a" (Body.assert true (Body.stop true)))))
      ([titleEvent 0 "a", Event.mk .assert (some 0) (some true) (some 1) none none,
        planEvent 0 1, timeEvent 0].filter toKeep) none ∧
    Drains (combineIter [.unit (runTest 0 "a" (Body.assert true (Body.stop true)))])
      [titleEvent 0 "a", Event.mk .assert (some 0) (some true) (some 1) none none,
       planEvent 0 1, timeEvent 0] none :=
  have h : Drains (.unit (runTest 0 "a" (Body.assert true (Body.stop true))))
      [titleEvent 0 "a", Event.mk .assert (some 0) (some true) (some 1) none none,
       planEvent 0 1, timeEvent 0] (some ⟨1, true, "a"⟩) := drain_sound 10 rfl
  ⟨h, (C10_terminal_discarded h setOffsetZero toKeep).1,
   (C10_terminal_discarded h setOffsetZero toKeep).2.1,
   (C10_terminal_discarded h setOffsetZero toKeep).2.2⟩

/-- Whatever happens inside a run that ends normally, the scheduler's own
terminal reports are exactly a `plan` followed by a `comment`. -/
theorem runScheduler_ok_shape (fl : Bool) (units : List TestUnit) (fuel : Nat)
    (out : List Event) (h : runScheduler fl units fuel = some (.ok out)) :
    ∃ evs st, out = versionEvent :: evs ++ [finalPlan st, finalComment st] := by
  rw [runScheduler.eq_def] at h
  cases units with
  | nil => exact absurd h (by simp)
  | cons root rest =>
    dsimp only at h
    cases hn : next fuel root with
    | none => rw [hn] at h; exact absurd h (by simp)
    | some x =>
      rw [hn] at h
      cases x with
      | done s => exact absurd h (by simp)
      | await => exact absurd h (by simp)
      | yield e root' =>
        simp only at h
        cases hl : runLoop fuel
            (pipeline fl (combineIter (.unit root' :: rest.map .unit))) ⟨0, 0, 0⟩ with
        | none => rw [hl] at h; exact absurd h (by simp)
        | some r =>
          rw [hl] at h
          obtain ⟨evs, st, ok⟩ := r
          cases ok with
          | true =>
            simp only [Option.some_inj, SchedResult.ok.injEq] at h
            exact ⟨evs, st, h.symm⟩
          | false => simp at h

/-- **C5** (counterexample).  The claim states the scheduler emits its own
terminal Plan and Time after the merged sequence ends.  On the code the
terminal reports after the merged sequence are a `plan` and a `comment`
(`'ok'` or `failed K of N tests`) — no `time` event is ever emitted by the
scheduler: the empty hierarchical run reports exactly
`version, plan, comment`, with no event of kind `time`. -/
theorem C5_counterexample :
    runScheduler false [runTest 0 "Root" (Body.stop true)] 10 =
      some (.ok [versionEvent, Event.mk .plan none none none none (some 0),
        Event.mk .comment none none none (some "ok") none]) ∧
    ∀ e ∈ [versionEvent, Event.mk .plan none none none none (some 0),
        Event.mk .comment none none none (some "ok") none],
      e.type ≠ EType.time :=
  ⟨by decide, by decide⟩

/-- **C5** (amended).  Under the hierarchical policy the scheduler's stream
filter forwards exactly the events that are at depth greater than zero or
whose kind is `title`, `assert`, `testAssert` or `comment` (so depth-0
`plan` and `time` are suppressed, and every depth > 0 event passes through
unchanged); and any normally ending run closes with the scheduler's own
terminal `plan` followed by a terminal `comment` (not a `time`). -/
theorem C5_hierarchical_policy :
    (∀ (merged : Iter) (l : List Event) (v : Option Summary), Drains merged l v →
      Drains (pipeline false merged)
        (l.filter (fun e => jsGtZero e.offset ||
          (e.type == EType.title || e.type == EType.assert ||
           e.type == EType.testAssert || e.type == EType.comment))) none) ∧
    (∀ (fl : Bool) (units : List TestUnit) (fuel : Nat) (out : List Event),
      runScheduler fl units fuel = some (.ok out) →
      ∃ evs st, out = versionEvent :: evs ++ [finalPlan st, finalComment st]) := by
  constructor
  · intro merged l v h
    have hf := Drains_filtered toKeep h
    have hpred : ∀ x ∈ l, toKeep x =
        (fun e => jsGtZero e.offset ||
          (e.type == EType.title || e.type == EType.assert ||
           e.type == EType.testAssert || e.type == EType.comment)) x := by
      intro x _
      rcases x with ⟨t, o, pa, i, de, pe⟩
      cases t <;> cases hjs : jsGtZero o <;> simp only [toKeep, hjs] <;> decide
    rw [List.filter_congr hpred] at hf
    exact hf
  · exact runScheduler_ok_shape

theorem C5_hierarchical_policy_witness :
    Drains (pipeline false (.unit (runTest 0 "a" (Body.assert true (Body.stop true)))))
      ([titleEvent 0 "a", Event.mk .assert (some 0) (some true) (some 1) none none,
        planEvent 0 1, timeEvent 0].filter (fun e => jsGtZero e.offset ||
          (e.type == EType.title || e.type == EType.assert ||
           e.type == EType.testAssert || e.type == EType.comment))) none ∧
    ∃ evs st, [versionEvent, Event.mk .plan none none none none (some 0),
        Event.mk .comment none none none (some "ok") none] =
      versionEvent :: evs ++ [finalPlan st, finalComment st] :=
  ⟨C5_hierarchical_policy.1 (.unit (runTest 0 "a" (Body.assert true (Body.stop true))))
     [titleEvent 0 "a", Event.mk .assert (some 0) (some true) (some 1) none none,
      planEvent 0 1, timeEvent 0] (some ⟨1, true, "a"⟩) (drain_sound 10 rfl),
   C5_hierarchical_policy.2 false [runTest 0 "Root" (Body.stop true)] 10
     [versionEvent, Event.mk .plan none none none none (some 0),
      Event.mk .comment none none none (some "ok") none] (by decide)⟩

/-- **C6.**  Under the flattened policy every `testAssert` event is dropped
and every forwarded event has its depth forced to 0: the flattened pipeline
drains to the `testAssert`-free, offset-0 image of the merged stream (then
depth-filtered), and every event it forwards has kind ≠ `testAssert` and
offset 0.  In particular the flattened run whose body contains one nested
unit with two passing assertions plus one top-level passing assertion
reports exactly 3 `assert` events, all at depth 0, with no `testAssert`
present. -/
theorem C6_flattened_policy :
    (∀ (merged : Iter) (l : List Event) (v : Option Summary), Drains merged l v →
      Drains (pipeline true merged)
        (((l.filter notTestAssert).map setOffsetZero).filter toKeep) none ∧
      ∀ e ∈ ((l.filter notTestAssert).map setOffsetZero).filter toKeep,
        e.type ≠ EType.testAssert ∧ e.offset = some 0) ∧
    (runScheduler true
        [runTest 0 "Root" (Body.stop true),
         runTest 0 "t" (Body.sub "n" (Body.assert true (Body.assert true (Body.stop true)))
           (Body.assert true (Body.stop true)))] 40 =
      some (.ok [versionEvent,
        Event.mk .title (some 0) none none (some "t") none,
        Event.mk .title (some 0) none none (some "n") none,
        Event.mk .assert (some 0) (some true) (some 1) none none,
        Event.mk .assert (some 0) (some true) (some 2) none none,
        Event.mk .assert (some 0) (some true) (some 3) none none,
        Event.mk .plan none none none none (some 3),
        Event.mk .comment none none none (some "ok") none]) ∧
     ([versionEvent,
        Event.mk .title (some 0) none none (some "t") none,
        Event.mk .title (some 0) none none (some "n") none,
        Event.mk .assert (some 0) (some true) (some 1) none none,
        Event.mk .assert (some 0) (some true) (some 2) none none,
        Event.mk .assert (some 0) (some true) (some 3) none none,
        Event.mk .plan none none none none (some 3),
        Event.mk .comment none none none (some "ok") none].filter
          (fun e => e.type == EType.assert)).length = 3 ∧
     ∀ e ∈ [versionEvent,
        Event.mk .title (some 0) none none (some "t") none,
        Event.mk .title (some 0) none none (some "n") none,
        Event.mk .assert (some 0) (some true) (some 1) none none,
        Event.mk .assert (some 0) (some true) (some 2) none none,
        Event.mk .assert (some 0) (some true) (some 3) none none,
        Event.mk .plan none none none none (some 3),
        Event.mk .comment none none none (some "ok") none],
      (e.type = EType.assert → e.offset = some 0) ∧ e.type ≠ EType.testAssert) := by
  constructor
  · intro merged l v h
    constructor
    · exact Drains_filtered toKeep
        (Drains_mapped setOffsetZero (Drains_filtered notTestAssert h))
    · intro e he
      have he1 := List.mem_of_mem_filter he
      obtain ⟨x, hx, hxe⟩ := List.mem_map.mp he1
      have hx2 := List.of_mem_filter hx
      simp only [notTestAssert, Bool.not_eq_eq_eq_not, Bool.not_true] at hx2
      constructor
      · rw [← hxe]
        intro hcontra
        have hxt : x.type = EType.testAssert := hcontra
        rw [hxt] at hx2
        simp at hx2
      · rw [← hxe]
        rfl
  · exact ⟨by decide, by decide, by decide⟩

theorem C6_flattened_policy_witness :
    Drains (pipeline true (.unit (runTest 0 "a" (Body.assert true (Body.stop true)))))
      ((([titleEvent 0 "a", Event.mk .assert (some 0) (some true) (some 1) none none,
          planEvent 0 1, timeEvent 0].filter notTestAssert).map setOffsetZero).filter toKeep)
      none ∧
    ∀ e ∈ (([titleEvent 0 "a", Event.mk .assert (some 0) (some true) (some 1) none none,
          planEvent 0 1, timeEvent 0].filter notTestAssert).map setOffsetZero).filter toKeep,
      e.type ≠ EType.testAssert ∧ e.offset = some 0 :=
  ⟨(C6_flattened_policy.1 (.unit (runTest 0 "a" (Body.assert true (Body.stop true))))
      [titleEvent 0 "a", Event.mk .assert (some 0) (some true) (some 1) none none,
       planEvent 0 1, timeEvent 0] (some ⟨1, true, "a"⟩) (drain_sound 10 rfl)).1,
   (C6_flattened_policy.1 (.unit (runTest 0 "a" (Body.assert true (Body.stop true))))
      [titleEvent 0 "a", Event.mk .assert (some 0) (some true) (some 1) none none,
       planEvent 0 1, timeEvent 0] (some ⟨1, true, "a"⟩) (drain_sound 10 rfl)).2⟩

/-! ### Renumbering characterization (C7) -/

/-- The renumbering condition of the scheduler's map stage: the event is not
at depth > 0 (an absent offset counts as depth 0) and its kind is `assert`
or `testAssert`. -/
def depthZeroAssert (e : Event) : Bool :=
  !(jsGtZero e.offset || (e.type != EType.assert && e.type != EType.testAssert))

theorem renumStep_not_cond {st : RunState} {e : Event}
    (h : depthZeroAssert e = false) : renumStep st e = (e, st) := by
  rw [renumStep, if_pos]
  rw [depthZeroAssert, Bool.not_eq_false'] at h
  exact h

theorem renumStep_cond {st : RunState} {e : Event}
    (h : depthZeroAssert e = true) :
    renumStep st e = ({ e with id := some (st.count + 1) },
      ⟨st.count + 1, st.success + (if e.pass.getD false then 1 else 0),
       st.failure + (if e.pass.getD false then 0 else 1)⟩) := by
  rw [renumStep, if_neg]
  rw [depthZeroAssert, Bool.not_eq_true'] at h
  simp [h]

theorem depthZeroAssert_set_id (e : Event) (n : Nat) :
    depthZeroAssert { e with id := some n } = depthZeroAssert e := rfl

theorem renumFold_count (l : List Event) (st : RunState) :
    (renumFold st l).2.count = st.count + (l.filter depthZeroAssert).length := by
  induction l generalizing st with
  | nil => simp [renumFold]
  | cons e rest ih =>
    rw [renumFold]
    cases hc : depthZeroAssert e with
    | false => simp only [renumStep_not_cond hc, ih, List.filter_cons, hc]; rfl
    | true =>
      simp only [renumStep_cond hc, ih, List.filter_cons, hc]
      simp only [if_true, List.length_cons]
      omega

theorem renumFold_success (l : List Event) (st : RunState) :
    (renumFold st l).2.success =
      st.success + (l.filter (fun e => depthZeroAssert e && e.pass.getD false)).length := by
  induction l generalizing st with
  | nil => simp [renumFold]
  | cons e rest ih =>
    rw [renumFold]
    cases hc : depthZeroAssert e with
    | false => simp [renumStep_not_cond hc, ih, List.filter_cons, hc]
    | true =>
      cases hp : e.pass.getD false with
      | false => simp [renumStep_cond hc, ih, List.filter_cons, hc, hp]
      | true =>
        simp [renumStep_cond hc, ih, List.filter_cons, hc, hp]
        omega

theorem renumFold_failure (l : List Event) (st : RunState) :
    (renumFold st l).2.failure =
      st.failure + (l.filter (fun e => depthZeroAssert e && !(e.pass.getD false))).length := by
  induction l generalizing st with
  | nil => simp [renumFold]
  | cons e rest ih =>
    rw [renumFold]
    cases hc : depthZeroAssert e with
    | false => simp [renumStep_not_cond hc, ih, List.filter_cons, hc]
    | true =>
      cases hp : e.pass.getD false with
      | true => simp [renumStep_cond hc, ih, List.filter_cons, hc, hp]
      | false =>
        simp [renumStep_cond hc, ih, List.filter_cons, hc, hp]
        omega

theorem renumFold_ids (l : List Event) (st : RunState) :
    ((renumFold st l).1.filter depthZeroAssert).map Event.id =
      (List.range' (st.count + 1) ((l.filter depthZeroAssert).length)).map some := by
  induction l generalizing st with
  | nil => simp [renumFold]
  | cons e rest ih =>
    rw [renumFold]
    cases hc : depthZeroAssert e with
    | false =>
      simp only [renumStep_not_cond hc, List.filter_cons, hc]
      exact ih st
    | true =>
      simp only [renumStep_cond hc, List.filter_cons, hc, if_true]
      simp only [List.filter_cons, depthZeroAssert_set_id, hc, if_true,
        List.length_cons, List.map_cons]
      rw [List.range'_succ, List.map_cons]
      congr 1
      exact ih ⟨st.count + 1, _, _⟩

theorem renumFold_untouched (l : List Event) (st : RunState) :
    List.Forall₂ (fun e o => depthZeroAssert e = false → o = e) l (renumFold st l).1 := by
  induction l generalizing st with
  | nil => exact .nil
  | cons e rest ih =>
    rw [renumFold]
    cases hc : depthZeroAssert e with
    | false =>
      simp only [renumStep_not_cond hc]
      exact .cons (fun _ => rfl) (ih st)
    | true =>
      simp only [renumStep_cond hc]
      refine .cons (fun hfalse => absurd hc (by rw [hfalse]; exact Bool.false_ne_true)) (ih _)

/-- **C7.**  The scheduler's pull loop reports the renumbered image of the
drained stream (when no bailout occurs); and the renumbering stage, run from
zeroed counters, assigns the forwarded `assert`/`testAssert` events at depth
0 (the code treats an absent offset like depth 0) the globally increasing
ids `1, 2, 3, …` in forwarding order, folds each such event's `pass` into the
run-wide success/failure counters, and forwards every other event — in
particular every event at depth greater than 0 — unchanged, keeping its
unit-local id and leaving the counters alone. -/
theorem C7_renumbering :
    (∀ (it : Iter) (l : List Event) (v : Option Summary), Drains it l v →
      (∀ e ∈ l, e.type ≠ EType.bailout) →
      ∃ f, runLoop f it ⟨0, 0, 0⟩ =
        some ((renumFold ⟨0, 0, 0⟩ l).1, (renumFold ⟨0, 0, 0⟩ l).2, true)) ∧
    (∀ l : List Event,
      ((renumFold ⟨0, 0, 0⟩ l).1.filter depthZeroAssert).map Event.id =
        (List.range' 1 ((l.filter depthZeroAssert).length)).map some ∧
      (renumFold ⟨0, 0, 0⟩ l).2.count = (l.filter depthZeroAssert).length ∧
      (renumFold ⟨0, 0, 0⟩ l).2.success =
        (l.filter (fun e => depthZeroAssert e && e.pass.getD false)).length ∧
      (renumFold ⟨0, 0, 0⟩ l).2.failure =
        (l.filter (fun e => depthZeroAssert e && !(e.pass.getD false))).length ∧
      List.Forall₂ (fun e o => depthZeroAssert e = false → o = e) l
        (renumFold ⟨0, 0, 0⟩ l).1) := by
  constructor
  · intro it l v h hb
    exact runLoop_of_drains h hb ⟨0, 0, 0⟩
  · intro l
    refine ⟨?_, ?_, ?_, ?_, renumFold_untouched l ⟨0, 0, 0⟩⟩
    · simpa using renumFold_ids l ⟨0, 0, 0⟩
    · simpa using renumFold_count l ⟨0, 0, 0⟩
    · simpa using renumFold_success l ⟨0, 0, 0⟩
    · simpa using renumFold_failure l ⟨0, 0, 0⟩

theorem C7_renumbering_witness :
    (∃ f, runLoop f (.unit (runTest 0 "a" (Body.assert true (Body.stop true)))) ⟨0, 0, 0⟩ =
      some ((renumFold ⟨0, 0, 0⟩
          [titleEvent 0 "a", Event.mk .assert (some 0) (some true) (some 1) none none,
           planEvent 0 1, timeEvent 0]).1,
        (renumFold ⟨0, 0, 0⟩
          [titleEvent 0 "a", Event.mk .assert (some 0) (some true) (some 1) none none,
           planEvent 0 1, timeEvent 0]).2, true)) ∧
    ((renumFold ⟨0, 0, 0⟩
        [titleEvent 0 "a", Event.mk .assert (some 0) (some true) (some 1) none none,
         planEvent 0 1, timeEvent 0]).1.filter depthZeroAssert).map Event.id =
      (List.range' 1 (([titleEvent 0 "a",
          Event.mk .assert (some 0) (some true) (some 1) none none,
          planEvent 0 1, timeEvent 0].filter depthZeroAssert).length)).map some :=
  ⟨C7_renumbering.1 (.unit (runTest 0 "a" (Body.assert true (Body.stop true))))
     [titleEvent 0 "a", Event.mk .assert (some 0) (some true) (some 1) none none,
      planEvent 0 1, timeEvent 0] (some ⟨1, true, "a"⟩)
     (drain_sound 10 rfl) (by decide),
   (C7_renumbering.2 [titleEvent 0 "a",
      Event.mk .assert (some 0) (some true) (some 1) none none,
      planEvent 0 1, timeEvent 0]).1⟩
